import Mathlib

/-!
Shallow embedding of the `go_dependencies` analyzer (package.go,
dependencies.go).  Packages live in a heap (a list of `Pkg` records) and
are referenced by their heap index, which plays the role of the Go
`*Package` pointer.  The process-wide map `pkgsByLocation` is an
association list from full path to heap index.  Strings are handled
through their character lists, so that every definition reduces in the
kernel; Go's byte-oriented operations coincide with these on ASCII paths.
-/

namespace GoDeps

/-- `pat` is a prefix of `s` (characterwise). -/
def isPrefL : List Char → List Char → Bool
  | _, [] => true
  | [], _ :: _ => false
  | c :: cs, p :: ps => decide (c = p) && isPrefL cs ps

/-- `pat` occurs as a contiguous substring of `s`: `strings.Contains`. -/
def hasSubstrL : List Char → List Char → Bool
  | [], pat => isPrefL [] pat
  | c :: cs, pat => isPrefL (c :: cs) pat || hasSubstrL cs pat

/-- Go `strings.Contains(s, pat)`. -/
def strContains (s pat : String) : Bool := hasSubstrL s.data pat.data

/-- Go's `s1 < s2` on strings (byte-lexicographic; characterwise here,
which agrees on ASCII). -/
def chLt : List Char → List Char → Bool
  | [], [] => false
  | [], _ :: _ => true
  | _ :: _, [] => false
  | a :: as, b :: bs => decide (a < b) || (decide (a = b) && chLt as bs)

/-- Boolean string `<` used by `pkgList.Less`. -/
def strLtB (a b : String) : Bool := chLt a.data b.data

/-- `strings.Split(s, "/")` on the character list. -/
def chSplit : List Char → List (List Char)
  | [] => [[]]
  | c :: cs =>
    if c = '/' then [] :: chSplit cs
    else
      match chSplit cs with
      | [] => [[c]]
      | l :: ls => (c :: l) :: ls

/-- `strings.Split(s, "/")`. -/
def splitSlash (s : String) : List String := (chSplit s.data).map (fun l => ⟨l⟩)

/-- `path.Join` of two already-clean segments (no cleaning performed;
the analyzer only joins clean paths). -/
def pathJoin (a b : String) : String :=
  if a = "" then b else if b = "" then a else a ++ "/" ++ b

/-- `path.Join` over a list of clean, non-empty segments. -/
def joinSlash : List String → String
  | [] => ""
  | [x] => x
  | x :: xs => x ++ "/" ++ joinSlash xs

/-- Number of characters of `s` (Go `len` on ASCII strings). -/
def strLen (s : String) : Nat := s.data.length

/-- Go slice `s[n:]` (characterwise). -/
def strDropN (s : String) (n : Nat) : String := ⟨s.data.drop n⟩

/-- The Go `Package` struct.  `dependencies` and `dependants` hold heap
indices, the embedding of the `*Package` pointers of `pkgList`. -/
structure Pkg where
  relPath : String
  learned : Bool
  internal : Bool
  dependencies : List Nat
  dependants : List Nat
deriving DecidableEq

/-- The zero value `Package{}` used for the root pseudo-package. -/
def defaultPkg : Pkg := ⟨"", false, false, [], []⟩

/-- Process state: configuration, the heap of packages, and the
`pkgsByLocation` registry. -/
structure St where
  rootPath : String
  vendorRel : String
  heap : List Pkg
  pkgsByLocation : List (String × Nat)
deriving DecidableEq

/-- Heap read; out-of-range indices yield the zero package (such indices
never occur in reachable states). -/
def listGetD : List Pkg → Nat → Pkg
  | [], _ => defaultPkg
  | p :: _, 0 => p
  | _ :: r, n+1 => listGetD r n

/-- Heap write (no-op out of range). -/
def setAt : List Pkg → Nat → (Pkg → Pkg) → List Pkg
  | [], _, _ => []
  | p :: r, 0, f => f p :: r
  | p :: r, n+1, f => p :: setAt r n f

def pkgAt (st : St) (pid : Nat) : Pkg := listGetD st.heap pid

def depsOf (st : St) (pid : Nat) : List Nat := (pkgAt st pid).dependencies

def dependantsOf (st : St) (pid : Nat) : List Nat := (pkgAt st pid).dependants

def internalOf (st : St) (pid : Nat) : Bool := (pkgAt st pid).internal

def learnedOf (st : St) (pid : Nat) : Bool := (pkgAt st pid).learned

def updatePkg (st : St) (pid : Nat) (f : Pkg → Pkg) : St :=
  { st with heap := setAt st.heap pid f }

/-- Registry lookup (`pkgsByLocation[fullPath]`). -/
def lookupL : List (String × Nat) → String → Option Nat
  | [], _ => none
  | (k, v) :: r, s => if k = s then some v else lookupL r s

/-- `Package.IsVendor`: first segment of the relative path equals the
configured vendor segment. -/
def isVendor (st : St) (pid : Nat) : Bool :=
  match splitSlash (pkgAt st pid).relPath with
  | [] => false
  | s :: _ => decide (s = st.vendorRel)

/-- `Package.Name`: the relative path, with the vendor segment stripped
for vendored packages. -/
def pkgName (st : St) (pid : Nat) : String :=
  if isVendor st pid then joinSlash (splitSlash (pkgAt st pid).relPath).tail
  else (pkgAt st pid).relPath

/-- `Package.Predeclared`: name in the fixed set builtin / C / unsafe. -/
def predeclared (st : St) (pid : Nat) : Bool :=
  decide (pkgName st pid = "builtin") || decide (pkgName st pid = "C") ||
    decide (pkgName st pid = "unsafe")

/-- Outcome of `NewPackage`: success with the new state and package id,
the duplicate error (state unchanged), or a run-time panic (the
out-of-range slice `fullPath[len(standardLibraryPath+"/"):]`). -/
inductive NPResult where
  | ok (st : St) (pid : Nat)
  | err (st : St) (msg : String)
  | crash
deriving DecidableEq

/-- `NewPackage` from package.go. -/
def newPackage (st : St) (fullPath : String) : NPResult :=
  if (lookupL st.pkgsByLocation fullPath).isSome then
    .err st ("Package already loaded: " ++ fullPath)
  else if fullPath = st.rootPath then
    .ok { st with
          heap := st.heap ++ [defaultPkg]
          pkgsByLocation := st.pkgsByLocation ++ [(fullPath, st.heap.length)] }
      st.heap.length
  else if strLen (st.rootPath ++ "/") ≤ strLen fullPath then
    .ok { st with
          heap := st.heap ++
            [{ defaultPkg with
               relPath := strDropN fullPath (strLen (st.rootPath ++ "/"))
               internal := strContains (strDropN fullPath (strLen (st.rootPath ++ "/")))
                 "internal" }]
          pkgsByLocation := st.pkgsByLocation ++ [(fullPath, st.heap.length)] }
      st.heap.length
  else
    .crash

/-- Insert `x` into a name-sorted list, after any element of equal name
(Go's `sort.Sort` only guarantees the ordering; for the short lists the
analyzer builds it runs insertion sort, which this matches). -/
def insertByName (st : St) (x : Nat) : List Nat → List Nat
  | [] => [x]
  | y :: ys =>
    if strLtB (pkgName st x) (pkgName st y) then x :: y :: ys
    else y :: insertByName st x ys

/-- `pkgList.Sort`: sort by display name. -/
def sortPkgs (st : St) (l : List Nat) : List Nat :=
  l.foldl (fun acc x => insertByName st x acc) []

/-- `pkgList.makeUnique`: remove adjacent identical references
(assumes the list is sorted). -/
def makeUnique : List Nat → List Nat
  | [] => []
  | [x] => [x]
  | x :: y :: r => if x = y then makeUnique (y :: r) else x :: makeUnique (y :: r)

/-- `Package.DependsOn`: append, re-sort, deduplicate adjacent. -/
def dependsOn (st : St) (owner dep : Nat) : St :=
  updatePkg st owner (fun p =>
    { p with dependencies := makeUnique (sortPkgs st (p.dependencies ++ [dep])) })

/-- The raw `importedPkg.Dependants = append(importedPkg.Dependants, pkg)`
from `scanFileForDependencies` (no sort, no dedup here). -/
def addDependant (st : St) (dep owner : Nat) : St :=
  updatePkg st dep (fun p => { p with dependants := p.dependants ++ [owner] })

/-- One resolved import edge as recorded by `scanFileForDependencies`. -/
def addEdge (st : St) (owner dep : Nat) : St :=
  addDependant (dependsOn st owner dep) dep owner

/-- A sequence of edge additions. -/
def applyEdges (st : St) (es : List (Nat × Nat)) : St :=
  es.foldl (fun s e => addEdge s e.1 e.2) st

/-- The full path `pkgFromImportPath` looks up: the vendor sub-path when
the import matches the regexp `golang_org/x/\w*` (an unanchored match,
so: contains the substring "golang_org/x/"), the plain join otherwise. -/
def canonicalImportPath (st : St) (importPath : String) : String :=
  if strContains importPath "golang_org/x/" then
    pathJoin st.rootPath (pathJoin "vendor" importPath)
  else pathJoin st.rootPath importPath

/-- `pkgFromImportPath`: registry lookup of the canonicalized path;
`none` is Go's nil `*Package`. -/
def pkgFromImportPath (st : St) (importPath : String) : Option Nat :=
  lookupL st.pkgsByLocation (canonicalImportPath st importPath)

/-- The per-import body of `scanFileForDependencies`.  When resolution
yields nil, the Go code still runs `pkg.DependsOn(nil)` and then reads
`importedPkg.Dependants` through the nil pointer, a run-time panic:
modelled as `none`. -/
def processImport (st : St) (owner : Nat) (importPath : String) : Option St :=
  match pkgFromImportPath st importPath with
  | some dep => some (addEdge st owner dep)
  | none => none

/-- The final pass in `main`: `Dependants.Sort(); Dependants.makeUnique()`
for every package. -/
def normalizeDependants (st : St) : St :=
  { st with heap := st.heap.map (fun p =>
      { p with dependants := makeUnique (sortPkgs st p.dependants) }) }

/-- One step of the accumulator in `DependencyDepth`'s loop:
`if importedPkgDepth >= depth { depth = importedPkgDepth + 1 }`.
`none` (a call that does not terminate) is absorbing. -/
def depthStep (acc d : Option Int) : Option Int :=
  match acc, d with
  | some a, some dd => some (if a ≤ dd then dd + 1 else a)
  | _, _ => none

/-- `Package.DependencyDepth`, with explicit recursion fuel: `none`
means the call has not terminated within `fuel` nested calls. -/
def dependencyDepthF (st : St) : Nat → Nat → Option Int
  | 0, _ => none
  | fuel+1, p =>
    if predeclared st p || learnedOf st p then some (-1)
    else (depsOf st p).foldl (fun acc d => depthStep acc (dependencyDepthF st fuel d)) (some 0)

/-- One step of the second loop of `Package.Imported`; a `some true`
accumulator short-circuits (Go returns immediately). -/
def impStep (acc r : Option Bool) : Option Bool :=
  match acc, r with
  | some true, _ => some true
  | some false, some b => some b
  | _, _ => none

/-- `Package.Imported`, with explicit recursion fuel. -/
def importedF (st : St) : Nat → Nat → Option Bool
  | 0, _ => none
  | fuel+1, p =>
    if (dependantsOf st p).any (fun d => !internalOf st d) then some true
    else (dependantsOf st p).foldl (fun acc d => impStep acc (importedF st fuel d)) (some false)

/-- A non-empty path following `dependants` edges. -/
inductive DepPath (st : St) : Nat → Nat → Prop
  | direct {p q : Nat} : q ∈ dependantsOf st p → DepPath st p q
  | step {p q r : Nat} : q ∈ dependantsOf st p → DepPath st q r → DepPath st p r

/-- Sorted ascending by display name, in the sense of `sort.IsSorted`
for `pkgList.Less`: no later element is strictly below its predecessor. -/
def sortedByName (st : St) : List Nat → Bool
  | [] => true
  | [_] => true
  | x :: y :: r => !(strLtB (pkgName st y) (pkgName st x)) && sortedByName st (y :: r)

/-- No two adjacent entries are the same reference. -/
def noAdjDup : List Nat → Bool
  | [] => true
  | [_] => true
  | x :: y :: r => !(decide (x = y)) && noAdjDup (y :: r)

/-- The depth-`d` bucket built by `sortByDependencyDepth` (all
packages of that depth, name-sorted), computing depths at fuel `F`. -/
def bucketOf (st : St) (F : Nat) (d : Int) : List Nat :=
  sortPkgs st ((List.range st.heap.length).filter
    (fun p => decide (dependencyDepthF st F p = some d)))

/-- The loop of `printPkgs`: visit buckets from depth `d` upwards and
stop at the first depth whose bucket is absent (empty).  `k` bounds the
number of iterations (the Go loop is unbounded; it terminates because
the bucket map is finite). -/
def printLoop (st : St) (F : Nat) : Nat → Int → List Nat
  | 0, _ => []
  | k+1, d => if bucketOf st F d = [] then [] else bucketOf st F d ++ printLoop st F k (d+1)

/-! ### Heap access lemmas -/

theorem listGetD_ge (l : List Pkg) : ∀ n, l.length ≤ n → listGetD l n = defaultPkg := by
  induction l with
  | nil => intro n _; cases n <;> rfl
  | cons p r ih =>
    intro n h
    cases n with
    | zero => simp at h
    | succ m => exact ih m (by simpa using h)

theorem setAt_length (f : Pkg → Pkg) : ∀ (l : List Pkg) (i : Nat), (setAt l i f).length = l.length := by
  intro l
  induction l with
  | nil => intro i; rfl
  | cons p r ih => intro i; cases i <;> simp [setAt, ih]

theorem listGetD_setAt_ne (f : Pkg → Pkg) :
    ∀ (l : List Pkg) (i j : Nat), i ≠ j → listGetD (setAt l i f) j = listGetD l j := by
  intro l
  induction l with
  | nil => intro i j _; cases i <;> rfl
  | cons p r ih =>
    intro i j hne
    cases i with
    | zero =>
      cases j with
      | zero => exact absurd rfl hne
      | succ m => rfl
    | succ n =>
      cases j with
      | zero => rfl
      | succ m => simpa [setAt, listGetD] using ih n m (by omega)

theorem listGetD_setAt_eq (f : Pkg → Pkg) :
    ∀ (l : List Pkg) (i : Nat), i < l.length → listGetD (setAt l i f) i = f (listGetD l i) := by
  intro l
  induction l with
  | nil => intro i h; simp at h
  | cons p r ih =>
    intro i h
    cases i with
    | zero => rfl
    | succ n => simpa [setAt, listGetD] using ih n (by simpa using h)

theorem setAt_ge (f : Pkg → Pkg) :
    ∀ (l : List Pkg) (i : Nat), l.length ≤ i → setAt l i f = l := by
  intro l
  induction l with
  | nil => intro i _; rfl
  | cons p r ih =>
    intro i h
    cases i with
    | zero => simp at h
    | succ n => simp [setAt, ih n (by simpa using h)]

theorem listGetD_map_lt (g : Pkg → Pkg) :
    ∀ (l : List Pkg) (p : Nat), p < l.length → listGetD (l.map g) p = g (listGetD l p) := by
  intro l
  induction l with
  | nil => intro p h; simp at h
  | cons x r ih =>
    intro p h
    cases p with
    | zero => rfl
    | succ n => simpa [listGetD] using ih n (by simpa using h)

theorem listGetD_append_length : ∀ (l : List Pkg) (p : Pkg), listGetD (l ++ [p]) l.length = p := by
  intro l
  induction l with
  | nil => intro p; rfl
  | cons x r ih => intro p; simpa [listGetD] using ih p

theorem listGetD_append_lt :
    ∀ (l : List Pkg) (p : Pkg) (i : Nat), i < l.length → listGetD (l ++ [p]) i = listGetD l i := by
  intro l
  induction l with
  | nil => intro p i h; simp at h
  | cons x r ih =>
    intro p i h
    cases i with
    | zero => rfl
    | succ n => simpa [listGetD] using ih p n (by simpa using h)

/-! ### Registry lookup lemmas -/

theorem lookupL_mem : ∀ (l : List (String × Nat)) (s : String) (v : Nat),
    lookupL l s = some v → (s, v) ∈ l := by
  intro l
  induction l with
  | nil => intro s v h; simp [lookupL] at h
  | cons kv r ih =>
    intro s v h
    obtain ⟨k, w⟩ := kv
    by_cases hk : k = s
    · subst hk
      simp [lookupL] at h
      simp [h]
    · simp [lookupL, hk] at h
      exact List.mem_cons_of_mem _ (ih s v h)

theorem lookupL_append_self : ∀ (l : List (String × Nat)) (s : String) (v : Nat),
    lookupL l s = none → lookupL (l ++ [(s, v)]) s = some v := by
  intro l
  induction l with
  | nil => intro s v _; simp [lookupL]
  | cons kv r ih =>
    intro s v h
    obtain ⟨k, w⟩ := kv
    by_cases hk : k = s
    · simp [lookupL, hk] at h
    · simpa [lookupL, hk] using ih s v (by simpa [lookupL, hk] using h)

/-! ### The name order -/

theorem chLt_asymm : ∀ {a b : List Char}, chLt a b = true → chLt b a = false := by
  intro a
  induction a with
  | nil =>
    intro b h
    cases b with
    | nil => simp [chLt] at h
    | cons y ys => simp [chLt]
  | cons x xs ih =>
    intro b h
    cases b with
    | nil => simp [chLt] at h
    | cons y ys =>
      simp only [chLt, Bool.or_eq_true, Bool.and_eq_true, decide_eq_true_eq] at h
      simp only [chLt, Bool.or_eq_false_iff, Bool.and_eq_false_iff, decide_eq_false_iff_not]
      rcases h with h | ⟨hEq, hLt⟩
      · exact ⟨lt_asymm h, Or.inl (ne_of_gt h)⟩
      · subst hEq
        exact ⟨lt_irrefl x, Or.inr (ih hLt)⟩

theorem strLtB_asymm {a b : String} (h : strLtB a b = true) : strLtB b a = false :=
  chLt_asymm h

/-! ### Sorting and deduplication lemmas -/

theorem sorted_insertByName (st : St) (x : Nat) :
    ∀ l, sortedByName st l = true → sortedByName st (insertByName st x l) = true := by
  intro l
  induction l with
  | nil => intro _; rfl
  | cons y ys ih =>
    intro hs
    by_cases hxy : strLtB (pkgName st x) (pkgName st y) = true
    · have hyx : strLtB (pkgName st y) (pkgName st x) = false := strLtB_asymm hxy
      simp [insertByName, hxy, sortedByName, hyx, hs]
    · have hxy' : strLtB (pkgName st x) (pkgName st y) = false := by
        simpa using hxy
      cases ys with
      | nil => simp [insertByName, hxy', sortedByName]
      | cons z zs =>
        have hzy : (!strLtB (pkgName st z) (pkgName st y)) = true := by
          simp only [sortedByName, Bool.and_eq_true] at hs
          exact hs.1
        have hs' : sortedByName st (z :: zs) = true := by
          simp only [sortedByName, Bool.and_eq_true] at hs
          exact hs.2
        by_cases hxz : strLtB (pkgName st x) (pkgName st z) = true
        · have hzx : strLtB (pkgName st z) (pkgName st x) = false := strLtB_asymm hxz
          simp [insertByName, hxy', hxz, sortedByName, hzx, hs']
        · have hxz' : strLtB (pkgName st x) (pkgName st z) = false := by
            simpa using hxz
          have htail : sortedByName st (insertByName st x (z :: zs)) = true := ih hs'
          have hstep : insertByName st x (y :: z :: zs) = y :: insertByName st x (z :: zs) := by
            simp [insertByName, hxy']
          have hstep2 : insertByName st x (z :: zs) = z :: insertByName st x zs := by
            simp [insertByName, hxz']
          rw [hstep, hstep2]
          rw [hstep2] at htail
          simp [sortedByName, hzy, htail]

theorem sorted_sortPkgs_aux (st : St) :
    ∀ (l acc : List Nat), sortedByName st acc = true →
      sortedByName st (l.foldl (fun a x => insertByName st x a) acc) = true := by
  intro l
  induction l with
  | nil => intro acc h; exact h
  | cons x xs ih => intro acc h; exact ih _ (sorted_insertByName st x acc h)

theorem sorted_sortPkgs (st : St) (l : List Nat) : sortedByName st (sortPkgs st l) = true :=
  sorted_sortPkgs_aux st l [] rfl

theorem mem_insertByName (st : St) (x : Nat) :
    ∀ (l : List Nat) (a : Nat), a ∈ insertByName st x l ↔ a = x ∨ a ∈ l := by
  intro l
  induction l with
  | nil => intro a; simp [insertByName]
  | cons y ys ih =>
    intro a
    by_cases hxy : strLtB (pkgName st x) (pkgName st y) = true
    · simp [insertByName, hxy]
    · have hxy' : strLtB (pkgName st x) (pkgName st y) = false := by simpa using hxy
      simp only [insertByName, hxy', Bool.false_eq_true, if_false, List.mem_cons, ih]
      tauto

theorem mem_sortPkgs_aux (st : St) :
    ∀ (l acc : List Nat) (a : Nat),
      a ∈ l.foldl (fun a x => insertByName st x a) acc ↔ a ∈ acc ∨ a ∈ l := by
  intro l
  induction l with
  | nil => intro acc a; simp
  | cons x xs ih =>
    intro acc a
    simp only [List.foldl, ih, mem_insertByName, List.mem_cons]
    tauto

theorem mem_sortPkgs (st : St) (l : List Nat) (a : Nat) : a ∈ sortPkgs st l ↔ a ∈ l := by
  simpa using mem_sortPkgs_aux st l [] a

theorem makeUnique_cons : ∀ (r : List Nat) (y : Nat), ∃ t, makeUnique (y :: r) = y :: t := by
  intro r
  induction r with
  | nil => intro y; exact ⟨[], rfl⟩
  | cons z r' ih =>
    intro y
    by_cases h : y = z
    · subst h
      obtain ⟨t, ht⟩ := ih y
      exact ⟨t, by simpa [makeUnique] using ht⟩
    · exact ⟨makeUnique (z :: r'), by simp [makeUnique, h]⟩

theorem sorted_makeUnique (st : St) :
    ∀ l, sortedByName st l = true → sortedByName st (makeUnique l) = true := by
  intro l
  induction l with
  | nil => intro _; rfl
  | cons x l' ih =>
    intro hs
    cases l' with
    | nil => exact hs
    | cons y r =>
      have hxy : (!strLtB (pkgName st y) (pkgName st x)) = true := by
        simp only [sortedByName, Bool.and_eq_true] at hs
        exact hs.1
      have hs' : sortedByName st (y :: r) = true := by
        simp only [sortedByName, Bool.and_eq_true] at hs
        exact hs.2
      by_cases h : x = y
      · simpa [makeUnique, h] using ih hs'
      · obtain ⟨t, ht⟩ := makeUnique_cons r y
        have htail := ih hs'
        rw [ht] at htail
        simp [makeUnique, h, ht, sortedByName, hxy, htail]

theorem noAdjDup_makeUnique : ∀ l : List Nat, noAdjDup (makeUnique l) = true := by
  intro l
  induction l with
  | nil => rfl
  | cons x l' ih =>
    cases l' with
    | nil => rfl
    | cons y r =>
      by_cases h : x = y
      · simpa [makeUnique, h] using ih
      · obtain ⟨t, ht⟩ := makeUnique_cons r y
        have htail := ih
        rw [ht] at htail
        simp [makeUnique, h, ht, noAdjDup, htail]

/-! ### Effect of the graph-builder operations on the heap -/

theorem pkgAt_updatePkg (st : St) (i : Nat) (f : Pkg → Pkg) (p : Nat) :
    pkgAt (updatePkg st i f) p =
      if i = p ∧ p < st.heap.length then f (pkgAt st p) else pkgAt st p := by
  by_cases hip : i = p
  · subst hip
    by_cases hlen : i < st.heap.length
    · simp [pkgAt, updatePkg, listGetD_setAt_eq f st.heap i hlen, hlen]
    · simp [pkgAt, updatePkg, setAt_ge f st.heap i (by omega), hlen]
  · simp [pkgAt, updatePkg, listGetD_setAt_ne f st.heap i p hip, hip]

theorem pkgName_congr (st st' : St) (h : ∀ p, (pkgAt st' p).relPath = (pkgAt st p).relPath)
    (hv : st'.vendorRel = st.vendorRel) (p : Nat) : pkgName st' p = pkgName st p := by
  simp only [pkgName, isVendor, h, hv]

theorem depsOf_updatePkg (st : St) (i : Nat) (f : Pkg → Pkg) (p : Nat) :
    depsOf (updatePkg st i f) p =
      if i = p ∧ p < st.heap.length then (f (pkgAt st p)).dependencies else depsOf st p := by
  rw [depsOf, pkgAt_updatePkg]
  split <;> rfl

theorem dependantsOf_updatePkg (st : St) (i : Nat) (f : Pkg → Pkg) (p : Nat) :
    dependantsOf (updatePkg st i f) p =
      if i = p ∧ p < st.heap.length then (f (pkgAt st p)).dependants else dependantsOf st p := by
  rw [dependantsOf, pkgAt_updatePkg]
  split <;> rfl

theorem pkgName_dependsOn (st : St) (a b p : Nat) : pkgName (dependsOn st a b) p = pkgName st p := by
  refine pkgName_congr st (dependsOn st a b) (fun q => ?_) rfl p
  rw [dependsOn, pkgAt_updatePkg]
  split <;> rfl

theorem pkgName_addDependant (st : St) (d o p : Nat) :
    pkgName (addDependant st d o) p = pkgName st p := by
  refine pkgName_congr st (addDependant st d o) (fun q => ?_) rfl p
  rw [addDependant, pkgAt_updatePkg]
  split <;> rfl

theorem pkgName_addEdge (st : St) (a b p : Nat) : pkgName (addEdge st a b) p = pkgName st p := by
  rw [addEdge, pkgName_addDependant, pkgName_dependsOn]

theorem heapLen_updatePkg (st : St) (i : Nat) (f : Pkg → Pkg) :
    (updatePkg st i f).heap.length = st.heap.length := by
  simp [updatePkg, setAt_length]

theorem heapLen_addEdge (st : St) (a b : Nat) : (addEdge st a b).heap.length = st.heap.length := by
  simp [addEdge, addDependant, dependsOn, heapLen_updatePkg]

theorem sortedByName_congr (st st' : St) (h : ∀ p, pkgName st' p = pkgName st p) :
    ∀ l, sortedByName st' l = sortedByName st l := by
  intro l
  induction l with
  | nil => rfl
  | cons x l' ih =>
    cases l' with
    | nil => rfl
    | cons y r => simp [sortedByName, h, ih]

theorem depsOf_ge (st : St) (p : Nat) (h : st.heap.length ≤ p) : depsOf st p = [] := by
  simp [depsOf, pkgAt, listGetD_ge _ _ h, defaultPkg]

theorem dependantsOf_ge (st : St) (p : Nat) (h : st.heap.length ≤ p) : dependantsOf st p = [] := by
  simp [dependantsOf, pkgAt, listGetD_ge _ _ h, defaultPkg]

theorem heapLen_dependsOn (st : St) (a b : Nat) :
    (dependsOn st a b).heap.length = st.heap.length :=
  heapLen_updatePkg st a _

theorem dependantsOf_dependsOn (st : St) (a b p : Nat) :
    dependantsOf (dependsOn st a b) p = dependantsOf st p := by
  rw [dependsOn, dependantsOf_updatePkg]
  split <;> rfl

theorem depsOf_dependsOn (st : St) (a b p : Nat) :
    depsOf (dependsOn st a b) p =
      if a = p ∧ p < st.heap.length then makeUnique (sortPkgs st (depsOf st p ++ [b]))
      else depsOf st p := by
  rw [dependsOn, depsOf_updatePkg]
  rfl

theorem depsOf_addDependant (st : St) (d o p : Nat) :
    depsOf (addDependant st d o) p = depsOf st p := by
  rw [addDependant, depsOf_updatePkg]
  split <;> rfl

theorem depsOf_addEdge (st : St) (a b p : Nat) :
    depsOf (addEdge st a b) p =
      if a = p ∧ p < st.heap.length then makeUnique (sortPkgs st (depsOf st p ++ [b]))
      else depsOf st p := by
  rw [addEdge, depsOf_addDependant, depsOf_dependsOn]

theorem dependantsOf_addEdge (st : St) (a b p : Nat) :
    dependantsOf (addEdge st a b) p =
      if b = p ∧ p < st.heap.length then dependantsOf st p ++ [a]
      else dependantsOf st p := by
  rw [addEdge, addDependant, dependantsOf_updatePkg, heapLen_dependsOn]
  split
  · show dependantsOf (dependsOn st a b) p ++ [a] = dependantsOf st p ++ [a]
    rw [dependantsOf_dependsOn]
  · exact dependantsOf_dependsOn st a b p

/-- Invariant: every dependency list is name-sorted with no adjacent
duplicate references. -/
def DepInv (st : St) : Prop :=
  ∀ p, sortedByName st (depsOf st p) = true ∧ noAdjDup (depsOf st p) = true

theorem depInv_addEdge (st : St) (a b : Nat) (h : DepInv st) : DepInv (addEdge st a b) := by
  intro p
  have hs := sortedByName_congr st (addEdge st a b) (fun q => pkgName_addEdge st a b q)
  rw [hs, depsOf_addEdge]
  split
  · exact ⟨sorted_makeUnique st _ (sorted_sortPkgs st _), noAdjDup_makeUnique _⟩
  · exact h p

theorem depInv_applyEdges (st : St) (es : List (Nat × Nat)) (h : DepInv st) :
    DepInv (applyEdges st es) := by
  induction es generalizing st with
  | nil => exact h
  | cons e es ih => exact ih (addEdge st e.1 e.2) (depInv_addEdge st e.1 e.2 h)

theorem pkgName_applyEdges (st : St) (es : List (Nat × Nat)) (p : Nat) :
    pkgName (applyEdges st es) p = pkgName st p := by
  induction es generalizing st with
  | nil => rfl
  | cons e es ih => rw [applyEdges, List.foldl_cons, ← applyEdges, ih, pkgName_addEdge]

theorem relPath_normalize (st : St) (p : Nat) :
    (pkgAt (normalizeDependants st) p).relPath = (pkgAt st p).relPath := by
  by_cases h : p < st.heap.length
  · rw [pkgAt, normalizeDependants]
    simp only
    rw [listGetD_map_lt _ st.heap p h]
    rfl
  · rw [pkgAt, normalizeDependants]
    simp only
    rw [listGetD_ge _ p (by simpa using (by omega : st.heap.length ≤ p)), pkgAt,
      listGetD_ge _ p (by omega)]

theorem pkgName_normalize (st : St) (p : Nat) :
    pkgName (normalizeDependants st) p = pkgName st p :=
  pkgName_congr _ _ (relPath_normalize st) rfl p

/-! ### Termination and characterization of DependencyDepth -/

theorem hr_unbounded (st : St) (rank : Nat → Nat)
    (hr : ∀ p, p < st.heap.length → ∀ d ∈ depsOf st p, rank d < rank p) :
    ∀ p, ∀ d ∈ depsOf st p, rank d < rank p := by
  intro p d hd
  by_cases h : p < st.heap.length
  · exact hr p h d hd
  · rw [depsOf_ge st p (by omega)] at hd
    simp at hd

theorem foldl_depthStep_none (F : Nat → Option Int) :
    ∀ l : List Nat, l.foldl (fun acc d => depthStep acc (F d)) none = none := by
  intro l
  induction l with
  | nil => rfl
  | cons d rest ih =>
    rw [List.foldl_cons]
    cases h : F d <;> simpa [depthStep] using ih

theorem foldl_depthStep_some (F : Nat → Option Int) :
    ∀ (l : List Nat) (acc : Option Int),
      (∀ d ∈ l, (F d).isSome) → acc.isSome →
      (l.foldl (fun acc d => depthStep acc (F d)) acc).isSome := by
  intro l
  induction l with
  | nil => intro acc _ hacc; exact hacc
  | cons d rest ih =>
    intro acc h hacc
    rw [List.foldl_cons]
    refine ih _ (fun x hx => h x (List.mem_cons_of_mem d hx)) ?_
    obtain ⟨a, ha⟩ := Option.isSome_iff_exists.mp hacc
    obtain ⟨v, hv⟩ := Option.isSome_iff_exists.mp (h d (List.mem_cons_self d rest))
    simp [ha, hv, depthStep]

theorem foldl_depthStep_congr (F G : Nat → Option Int) :
    ∀ (l : List Nat) (acc : Option Int), (∀ d ∈ l, F d = G d) →
      l.foldl (fun acc d => depthStep acc (F d)) acc =
        l.foldl (fun acc d => depthStep acc (G d)) acc := by
  intro l
  induction l with
  | nil => intro acc _; rfl
  | cons d rest ih =>
    intro acc h
    rw [List.foldl_cons, List.foldl_cons, h d (List.mem_cons_self d rest)]
    exact ih _ (fun x hx => h x (List.mem_cons_of_mem d hx))

theorem foldl_depthStep_values (F : Nat → Option Int) :
    ∀ l : List Nat, (∀ d ∈ l, (F d).isSome) →
      ∃ vs, List.Forall₂ (fun d v => F d = some v) l vs ∧
        ∀ a : Int, l.foldl (fun acc d => depthStep acc (F d)) (some a) =
          some (vs.foldl (fun x v => if x ≤ v then v + 1 else x) a) := by
  intro l
  induction l with
  | nil => intro _; exact ⟨[], List.Forall₂.nil, fun a => rfl⟩
  | cons d rest ih =>
    intro h
    obtain ⟨v, hv⟩ := Option.isSome_iff_exists.mp (h d (List.mem_cons_self d rest))
    obtain ⟨vs, hvs, hfold⟩ := ih (fun x hx => h x (List.mem_cons_of_mem d hx))
    refine ⟨v :: vs, List.Forall₂.cons hv hvs, fun a => ?_⟩
    rw [List.foldl_cons, List.foldl_cons]
    have hstep : depthStep (some a) (F d) = some (if a ≤ v then v + 1 else a) := by
      simp [hv, depthStep]
    rw [hstep]
    exact hfold _

theorem foldl_depthStep_ge (F : Nat → Option Int) :
    ∀ (l : List Nat) (a v : Int),
      l.foldl (fun acc d => depthStep acc (F d)) (some a) = some v → a ≤ v := by
  intro l
  induction l with
  | nil =>
    intro a v h
    simp at h
    omega
  | cons d rest ih =>
    intro a v h
    rw [List.foldl_cons] at h
    cases hd : F d with
    | none =>
      rw [hd] at h
      have : depthStep (some a) none = none := rfl
      rw [this, foldl_depthStep_none] at h
      exact absurd h (by simp)
    | some w =>
      rw [hd] at h
      have hstep : depthStep (some a) (some w) = some (if a ≤ w then w + 1 else a) := rfl
      rw [hstep] at h
      have := ih _ _ h
      split at this <;> omega

theorem depth_ge_neg_one (st : St) (fuel p : Nat) (v : Int)
    (h : dependencyDepthF st fuel p = some v) : -1 ≤ v := by
  cases fuel with
  | zero => simp [dependencyDepthF] at h
  | succ f =>
    rw [dependencyDepthF] at h
    by_cases hc : (predeclared st p || learnedOf st p) = true
    · rw [if_pos hc] at h
      simp at h
      omega
    · rw [if_neg hc] at h
      have := foldl_depthStep_ge (fun d => dependencyDepthF st f d) (depsOf st p) 0 v h
      omega

theorem depth_stable_aux (st : St) (rank : Nat → Nat)
    (hr : ∀ p, ∀ d ∈ depsOf st p, rank d < rank p) :
    ∀ (b p k k' : Nat), rank p < b → rank p < k → rank p < k' →
      dependencyDepthF st k p = dependencyDepthF st k' p ∧
        (dependencyDepthF st k p).isSome := by
  intro b
  induction b with
  | zero => intro p k k' hb; exact absurd hb (Nat.not_lt_zero _)
  | succ b ih =>
    intro p k k' hb hk hk'
    obtain ⟨k1, rfl⟩ : ∃ m, k = m + 1 := ⟨k - 1, by omega⟩
    obtain ⟨k2, rfl⟩ : ∃ m, k' = m + 1 := ⟨k' - 1, by omega⟩
    rw [dependencyDepthF, dependencyDepthF]
    by_cases hc : (predeclared st p || learnedOf st p) = true
    · rw [if_pos hc, if_pos hc]
      exact ⟨rfl, rfl⟩
    · rw [if_neg hc, if_neg hc]
      have hd : ∀ d ∈ depsOf st p,
          dependencyDepthF st k1 d = dependencyDepthF st k2 d ∧
            (dependencyDepthF st k1 d).isSome := by
        intro d hdm
        have hdr := hr p d hdm
        exact ih d k1 k2 (by omega) (by omega) (by omega)
      constructor
      · exact foldl_depthStep_congr _ _ _ _ (fun d hd' => (hd d hd').1)
      · exact foldl_depthStep_some _ _ _ (fun d hd' => (hd d hd').2) rfl

theorem if_step_max (a v : Int) : (if a ≤ v then v + 1 else a) = max a (1 + v) := by
  by_cases h : a ≤ v
  · rw [if_pos h, max_eq_right (by omega : a ≤ 1 + v)]
    omega
  · rw [if_neg h, max_eq_left (by omega : 1 + v ≤ a)]

theorem foldl_max_init : ∀ (l : List Int) (x y : Int),
    l.foldl max (max x y) = max x (l.foldl max y) := by
  intro l
  induction l with
  | nil => intro x y; rfl
  | cons z zs ih => intro x y; simp [List.foldl, max_assoc, ih]

theorem foldl_step_eq_max : ∀ (vs : List Int) (a v0 : Int),
    (v0 :: vs).foldl (fun x v => if x ≤ v then v + 1 else x) a =
      max a (1 + vs.foldl max v0) := by
  intro vs
  induction vs with
  | nil =>
    intro a v0
    simp only [List.foldl, if_step_max]
  | cons w vs ih =>
    intro a v0
    rw [List.foldl_cons, if_step_max a v0, ih (max a (1 + v0)) w, List.foldl_cons,
      foldl_max_init, ← max_add_add_left, max_assoc]

theorem foldl_max_ge_init : ∀ (l : List Int) (x : Int), x ≤ l.foldl max x := by
  intro l
  induction l with
  | nil => intro x; exact le_refl x
  | cons v rest ih =>
    intro x
    rw [List.foldl_cons]
    exact le_trans (le_max_left x v) (ih _)

theorem foldl_max_mem_le : ∀ (l : List Int) (x v : Int), v ∈ l → v ≤ l.foldl max x := by
  intro l
  induction l with
  | nil => intro x v h; simp at h
  | cons w rest ih =>
    intro x v h
    rw [List.foldl_cons]
    rcases List.mem_cons.mp h with h | h
    · subst h
      exact le_trans (le_max_right x v) (foldl_max_ge_init rest _)
    · exact ih _ v h

theorem foldl_max_const_neg_one : ∀ l : List Int, (∀ v ∈ l, v = -1) →
    l.foldl max (-1) = -1 := by
  intro l
  induction l with
  | nil => intro _; rfl
  | cons w rest ih =>
    intro h
    rw [List.foldl_cons, h w (List.mem_cons_self w rest)]
    simpa using ih (fun v hv => h v (List.mem_cons_of_mem w hv))

theorem forall₂_congr_fun {l : List Nat} {vs : List Int} (F G : Nat → Option Int)
    (h : ∀ x ∈ l, F x = G x)
    (hf : List.Forall₂ (fun x y => F x = some y) l vs) :
    List.Forall₂ (fun x y => G x = some y) l vs := by
  induction hf with
  | nil => exact List.Forall₂.nil
  | cons hxy htail ih =>
    refine List.Forall₂.cons ?_ (ih (fun x hx => h x (List.mem_cons_of_mem _ hx)))
    rw [← h _ (List.mem_cons_self _ _)]
    exact hxy

theorem forall₂_mem_left {R : Nat → Int → Prop} :
    ∀ {l : List Nat} {vs : List Int}, List.Forall₂ R l vs →
      ∀ a ∈ l, ∃ b ∈ vs, R a b := by
  intro l vs hf
  induction hf with
  | nil => intro a ha; simp at ha
  | cons hxy htail ih =>
    intro a ha
    rcases List.mem_cons.mp ha with h | h
    · subst h
      exact ⟨_, List.mem_cons_self _ _, hxy⟩
    · obtain ⟨b, hb, hr⟩ := ih a h
      exact ⟨b, List.mem_cons_of_mem _ hb, hr⟩

theorem forall₂_mem_right {R : Nat → Int → Prop} :
    ∀ {l : List Nat} {vs : List Int}, List.Forall₂ R l vs →
      ∀ b ∈ vs, ∃ a ∈ l, R a b := by
  intro l vs hf
  induction hf with
  | nil => intro b hb; simp at hb
  | cons hxy htail ih =>
    intro b hb
    rcases List.mem_cons.mp hb with h | h
    · subst h
      exact ⟨_, List.mem_cons_self _ _, hxy⟩
    · obtain ⟨a, ha, hr⟩ := ih b h
      exact ⟨a, List.mem_cons_of_mem _ ha, hr⟩

/-! ### Termination and characterization of Imported -/

theorem hri_unbounded (st : St) (rank : Nat → Nat)
    (hr : ∀ p, p < st.heap.length → ∀ d ∈ dependantsOf st p, rank d < rank p) :
    ∀ p, ∀ d ∈ dependantsOf st p, rank d < rank p := by
  intro p d hd
  by_cases h : p < st.heap.length
  · exact hr p h d hd
  · rw [dependantsOf_ge st p (by omega)] at hd
    simp at hd

theorem foldl_impStep_none (F : Nat → Option Bool) :
    ∀ l : List Nat, l.foldl (fun acc d => impStep acc (F d)) none = none := by
  intro l
  induction l with
  | nil => rfl
  | cons d rest ih =>
    rw [List.foldl_cons]
    cases h : F d <;> simpa [impStep] using ih

theorem foldl_impStep_true (F : Nat → Option Bool) :
    ∀ l : List Nat, l.foldl (fun acc d => impStep acc (F d)) (some true) = some true := by
  intro l
  induction l with
  | nil => rfl
  | cons d rest ih =>
    rw [List.foldl_cons]
    cases h : F d <;> simpa [impStep] using ih

theorem foldl_impStep_some (F : Nat → Option Bool) :
    ∀ (l : List Nat) (acc : Option Bool),
      (∀ d ∈ l, (F d).isSome) → acc.isSome →
      (l.foldl (fun acc d => impStep acc (F d)) acc).isSome := by
  intro l
  induction l with
  | nil => intro acc _ hacc; exact hacc
  | cons d rest ih =>
    intro acc h hacc
    rw [List.foldl_cons]
    refine ih _ (fun x hx => h x (List.mem_cons_of_mem d hx)) ?_
    obtain ⟨a, ha⟩ := Option.isSome_iff_exists.mp hacc
    obtain ⟨v, hv⟩ := Option.isSome_iff_exists.mp (h d (List.mem_cons_self d rest))
    cases a <;> simp [ha, hv, impStep]

theorem foldl_impStep_congr (F G : Nat → Option Bool) :
    ∀ (l : List Nat) (acc : Option Bool), (∀ d ∈ l, F d = G d) →
      l.foldl (fun acc d => impStep acc (F d)) acc =
        l.foldl (fun acc d => impStep acc (G d)) acc := by
  intro l
  induction l with
  | nil => intro acc _; rfl
  | cons d rest ih =>
    intro acc h
    rw [List.foldl_cons, List.foldl_cons, h d (List.mem_cons_self d rest)]
    exact ih _ (fun x hx => h x (List.mem_cons_of_mem d hx))

theorem foldl_impStep_eq_true_iff (F : Nat → Option Bool) :
    ∀ l : List Nat, (∀ d ∈ l, (F d).isSome) →
      (l.foldl (fun acc d => impStep acc (F d)) (some false) = some true ↔
        ∃ d ∈ l, F d = some true) := by
  intro l
  induction l with
  | nil =>
    intro _
    simp
  | cons d rest ih =>
    intro h
    obtain ⟨b, hb⟩ := Option.isSome_iff_exists.mp (h d (List.mem_cons_self d rest))
    rw [List.foldl_cons]
    cases b with
    | true =>
      have hstep : impStep (some false) (F d) = some true := by simp [hb, impStep]
      rw [hstep, foldl_impStep_true]
      simp only [List.mem_cons, true_iff]
      exact ⟨d, Or.inl rfl, hb⟩
    | false =>
      have hstep : impStep (some false) (F d) = some false := by simp [hb, impStep]
      rw [hstep, ih (fun x hx => h x (List.mem_cons_of_mem d hx))]
      constructor
      · rintro ⟨x, hx, hxt⟩
        exact ⟨x, List.mem_cons_of_mem d hx, hxt⟩
      · rintro ⟨x, hx, hxt⟩
        rcases List.mem_cons.mp hx with hxd | hxr
        · subst hxd
          rw [hb] at hxt
          exact absurd hxt (by simp)
        · exact ⟨x, hxr, hxt⟩

theorem imp_stable_aux (st : St) (rank : Nat → Nat)
    (hr : ∀ p, ∀ d ∈ dependantsOf st p, rank d < rank p) :
    ∀ (b p k k' : Nat), rank p < b → rank p < k → rank p < k' →
      importedF st k p = importedF st k' p ∧ (importedF st k p).isSome := by
  intro b
  induction b with
  | zero => intro p k k' hb; exact absurd hb (Nat.not_lt_zero _)
  | succ b ih =>
    intro p k k' hb hk hk'
    obtain ⟨k1, rfl⟩ : ∃ m, k = m + 1 := ⟨k - 1, by omega⟩
    obtain ⟨k2, rfl⟩ : ∃ m, k' = m + 1 := ⟨k' - 1, by omega⟩
    rw [importedF, importedF]
    by_cases hc : (dependantsOf st p).any (fun d => !internalOf st d) = true
    · rw [if_pos hc, if_pos hc]
      exact ⟨rfl, rfl⟩
    · rw [if_neg hc, if_neg hc]
      have hd : ∀ d ∈ dependantsOf st p,
          importedF st k1 d = importedF st k2 d ∧ (importedF st k1 d).isSome := by
        intro d hdm
        have hdr := hr p d hdm
        exact ih d k1 k2 (by omega) (by omega) (by omega)
      constructor
      · exact foldl_impStep_congr _ _ _ _ (fun d hd' => (hd d hd').1)
      · exact foldl_impStep_some _ _ _ (fun d hd' => (hd d hd').2) rfl

theorem imported_path_aux (st : St) (rank : Nat → Nat)
    (hr : ∀ p, ∀ d ∈ dependantsOf st p, rank d < rank p) :
    ∀ (b p : Nat), rank p < b → ∀ fuel, rank p < fuel →
      (importedF st fuel p = some true ↔
        ∃ q, DepPath st p q ∧ internalOf st q = false) := by
  intro b
  induction b with
  | zero => intro p hb; exact absurd hb (Nat.not_lt_zero _)
  | succ b ih =>
    intro p hb fuel hf
    obtain ⟨f, rfl⟩ : ∃ m, fuel = m + 1 := ⟨fuel - 1, by omega⟩
    rw [importedF]
    by_cases hany : (dependantsOf st p).any (fun d => !internalOf st d) = true
    · rw [if_pos hany]
      constructor
      · intro _
        obtain ⟨q, hq, hqi⟩ := List.any_eq_true.mp hany
        exact ⟨q, DepPath.direct hq, by simpa using hqi⟩
      · intro _
        rfl
    · rw [if_neg hany]
      have hsome : ∀ d ∈ dependantsOf st p, (importedF st f d).isSome := by
        intro d hd
        have hdr := hr p d hd
        exact (imp_stable_aux st rank hr (rank d + 1) d f f (by omega) (by omega)
          (by omega)).2
      rw [foldl_impStep_eq_true_iff _ _ hsome]
      constructor
      · rintro ⟨d, hd, hdt⟩
        have hdr := hr p d hd
        obtain ⟨q, hpath, hqi⟩ := (ih d (by omega) f (by omega)).mp hdt
        exact ⟨q, DepPath.step hd hpath, hqi⟩
      · rintro ⟨q, hpath, hqi⟩
        cases hpath with
        | direct hq =>
          exact absurd (List.any_eq_true.mpr ⟨q, hq, by simp [hqi]⟩) hany
        | step hmem hrest =>
          rename_i d
          have hdr := hr p d hmem
          have hdt : importedF st f d = some true :=
            (ih d (by omega) f (by omega)).mpr ⟨q, hrest, hqi⟩
          exact ⟨d, hmem, hdt⟩

theorem dependantsOf_normalize (st : St) (p : Nat) :
    dependantsOf (normalizeDependants st) p =
      if p < st.heap.length then makeUnique (sortPkgs st (dependantsOf st p)) else [] := by
  by_cases h : p < st.heap.length
  · rw [dependantsOf, pkgAt, normalizeDependants]
    simp only
    rw [listGetD_map_lt _ st.heap p h]
    simp [h, dependantsOf, pkgAt]
  · rw [dependantsOf, pkgAt, normalizeDependants]
    simp only
    rw [listGetD_ge _ p (by simpa using (by omega : st.heap.length ≤ p))]
    simp [h, defaultPkg]

/-! ### The report loop -/

theorem printLoop_range (st : St) (F N : Nat)
    (hNe : bucketOf st F (N : Int) = [])
    (hFull : ∀ m : Nat, m < N → bucketOf st F (m : Int) ≠ []) :
    ∀ (k j : Nat), j ≤ N → N - j < k →
      printLoop st F k (j : Int) =
        ((List.range' j (N - j)).map (fun m : Nat => bucketOf st F (m : Int))).flatten := by
  intro k
  induction k with
  | zero => intro j hj hk; exact absurd hk (Nat.not_lt_zero _)
  | succ k ih =>
    intro j hj hk
    rw [printLoop]
    by_cases hjN : j = N
    · subst hjN
      rw [if_pos hNe]
      simp
    · have hjlt : j < N := by omega
      rw [if_neg (hFull j hjlt)]
      have hcast : (j : Int) + 1 = ((j + 1 : Nat) : Int) := by push_cast; ring
      rw [hcast, ih (j + 1) (by omega) (by omega)]
      have hrange : N - j = (N - (j + 1)) + 1 := by omega
      rw [hrange, List.range'_succ]
      simp

/-! ### Concrete states used by witnesses and counterexamples -/

/-- A five-package tree: `a` (no imports), `b` (imports a),
`internal/c` (imports a and b), `d` (learned), `e` (imports d). -/
def exSt : St :=
  { rootPath := "r"
    vendorRel := "vendor"
    heap := [⟨"a", false, false, [], [1, 2]⟩,
             ⟨"b", false, false, [0], [2]⟩,
             ⟨"internal/c", false, true, [0, 1], []⟩,
             ⟨"d", true, false, [], [4]⟩,
             ⟨"e", false, false, [3], []⟩]
    pkgsByLocation := [("r/a", 0), ("r/b", 1), ("r/internal/c", 2), ("r/d", 3), ("r/e", 4)] }

/-- A topological rank for the dependants graph of `exSt`. -/
def rankI5 : Nat → Nat := fun p => 5 - p

/-- Three edge-less packages named `c`, `b`, `a` (in heap order). -/
def cSt4 : St :=
  { rootPath := "r"
    vendorRel := "vendor"
    heap := [⟨"c", false, false, [], []⟩, ⟨"b", false, false, [], []⟩,
             ⟨"a", false, false, [], []⟩]
    pkgsByLocation := [("r/c", 0), ("r/b", 1), ("r/a", 2)] }

/-- An empty registry with root path `r`. -/
def cSt6 : St := { rootPath := "r", vendorRel := "vendor", heap := [], pkgsByLocation := [] }

/-- `cSt6` after registering `r/internals`. -/
def cSt6' : St :=
  { rootPath := "r"
    vendorRel := "vendor"
    heap := [⟨"internals", false, true, [], []⟩]
    pkgsByLocation := [("r/internals", 0)] }

/-- An empty registry with root path `root`. -/
def cStRoot : St :=
  { rootPath := "root", vendorRel := "vendor", heap := [], pkgsByLocation := [] }

/-! ### The claims -/

/-- C1: for a raw import whose canonicalized full identity is not in the
registry, resolution (`pkgFromImportPath`) does yield none — but the import
is not silently ignored: `scanFileForDependencies` passes the nil package
to `DependsOn` and then dereferences it (`importedPkg.Dependants`), a
run-time nil-pointer panic, modelled by `processImport` returning `none`.
The claim's "no edge and the scan continues without error or crash" is
contradicted by the code. -/
theorem unresolved_import_crash (st : St) (owner : Nat) (raw : String)
    (h : lookupL st.pkgsByLocation (canonicalImportPath st raw) = none) :
    pkgFromImportPath st raw = none ∧ processImport st owner raw = none := by
  have h1 : pkgFromImportPath st raw = none := h
  exact ⟨h1, by simp [processImport, h1]⟩

/-- Witness for the C1 theorem at a concrete unresolvable import. -/
theorem unresolved_import_crash_witness :
    pkgFromImportPath exSt "zzz" = none ∧ processImport exSt 1 "zzz" = none :=
  unresolved_import_crash exSt 1 "zzz" (by decide)

/-- C2: assuming a topological rank for the dependency graph (acyclicity),
`DependencyDepth` returns -1 for learned or predeclared packages, 0 for a
package with no dependencies, and `1 + max` of the dependency depths of
its dependencies otherwise. -/
theorem dependencyDepth_recurrence (st : St) (rank : Nat → Nat)
    (hr : ∀ p, p < st.heap.length → ∀ d ∈ depsOf st p, rank d < rank p)
    (p fuel : Nat) (hf : rank p < fuel) :
    ((predeclared st p || learnedOf st p) = true →
        dependencyDepthF st fuel p = some (-1)) ∧
    ((predeclared st p || learnedOf st p) = false → depsOf st p = [] →
        dependencyDepthF st fuel p = some 0) ∧
    (∀ d ds, (predeclared st p || learnedOf st p) = false → depsOf st p = d :: ds →
        ∃ v vs, dependencyDepthF st fuel d = some v ∧
          List.Forall₂ (fun x y => dependencyDepthF st fuel x = some y) ds vs ∧
          dependencyDepthF st fuel p = some (1 + vs.foldl max v)) := by
  have hru := hr_unbounded st rank hr
  obtain ⟨f, rfl⟩ : ∃ m, fuel = m + 1 := ⟨fuel - 1, by omega⟩
  refine ⟨?_, ?_, ?_⟩
  · intro hc
    rw [dependencyDepthF, if_pos hc]
  · intro hc hdeps
    rw [dependencyDepthF, if_neg (by simp [hc]), hdeps]
    rfl
  · intro d ds hc hdeps
    have hstab : ∀ x ∈ depsOf st p,
        dependencyDepthF st f x = dependencyDepthF st (f + 1) x ∧
          (dependencyDepthF st f x).isSome := by
      intro x hx
      have hxr := hru p x hx
      exact depth_stable_aux st rank hru (rank x + 1) x f (f + 1) (by omega) (by omega)
        (by omega)
    obtain ⟨vs0, hvs0, hfold⟩ := foldl_depthStep_values (fun x => dependencyDepthF st f x)
      (depsOf st p) (fun x hx => (hstab x hx).2)
    rw [hdeps] at hvs0
    obtain ⟨v, vs, hv0, hvs, rfl⟩ := List.forall₂_cons_left_iff.mp hvs0
    have hdmem : d ∈ depsOf st p := by rw [hdeps]; exact List.mem_cons_self d ds
    refine ⟨v, vs, ?_, ?_, ?_⟩
    · rw [← (hstab d hdmem).1]
      exact hv0
    · refine forall₂_congr_fun _ _ ?_ hvs
      intro x hx
      exact (hstab x (by rw [hdeps]; exact List.mem_cons_of_mem d hx)).1
    · have hvge : -1 ≤ v := depth_ge_neg_one st f d v hv0
      have hMge := foldl_max_ge_init vs v
      rw [dependencyDepthF, if_neg (by simp [hc]), hfold 0, foldl_step_eq_max,
        max_eq_right (by omega)]

/-- Witness for the C2 theorem: package 1 of `exSt` has the single
dependency 0, so its depth is `1 + max` over that dependency's depth. -/
theorem dependencyDepth_recurrence_witness :
    ∃ v vs, dependencyDepthF exSt 2 0 = some v ∧
      List.Forall₂ (fun x y => dependencyDepthF exSt 2 x = some y) [] vs ∧
      dependencyDepthF exSt 2 1 = some (1 + vs.foldl max v) :=
  (dependencyDepth_recurrence exSt (fun p => p) (by decide) 1 2 (by decide)).2.2 0 []
    (by decide) (by decide)

/-- C3: assuming a topological rank for the dependants graph (acyclicity),
`Imported` is true exactly when a non-empty chain of dependants edges ends
at a non-internal package, and a package with no dependants is not
imported. -/
theorem imported_iff_dependant_path (st : St) (rank : Nat → Nat)
    (hr : ∀ p, p < st.heap.length → ∀ d ∈ dependantsOf st p, rank d < rank p)
    (p fuel : Nat) (hf : rank p < fuel) :
    (importedF st fuel p = some true ↔
      ∃ q, DepPath st p q ∧ internalOf st q = false) ∧
    (dependantsOf st p = [] → importedF st fuel p = some false) := by
  have hru := hri_unbounded st rank hr
  constructor
  · exact imported_path_aux st rank hru (rank p + 1) p (by omega) fuel hf
  · intro hdep
    obtain ⟨f, rfl⟩ : ∃ m, fuel = m + 1 := ⟨fuel - 1, by omega⟩
    simp [importedF, hdep]

/-- Witness for the C3 theorem at package 0 of `exSt`. -/
theorem imported_iff_dependant_path_witness :
    (importedF exSt 6 0 = some true ↔
      ∃ q, DepPath exSt 0 q ∧ internalOf exSt q = false) ∧
    (dependantsOf exSt 0 = [] → importedF exSt 6 0 = some false) :=
  imported_iff_dependant_path exSt rankI5 (by decide) 0 6 (by decide)

/-- C4 as stated is false: dependants edges are recorded by a raw append
in `scanFileForDependencies`, so after the edge additions (1,0) then (2,0)
in `cSt4`, package 0's Dependants list is [1, 2], whose display names
("b", "a") are not sorted; repeating an edge leaves a duplicate reference
until main's final pass. -/
theorem edge_lists_cex :
    sortedByName (applyEdges cSt4 [(1, 0), (2, 0)])
        (dependantsOf (applyEdges cSt4 [(1, 0), (2, 0)]) 0) = false ∧
      noAdjDup (dependantsOf (applyEdges cSt4 [(1, 0), (1, 0)]) 0) = false := by decide

/-- C4 (amended): after any sequence of edge additions every package's
Dependencies list is sorted by display name with no adjacent duplicate
references; the Dependants lists reach that state only after the final
`Sort` + `makeUnique` pass that `main` runs over all packages. -/
theorem edge_lists_discipline (st : St) (es : List (Nat × Nat))
    (h0 : ∀ p, p < st.heap.length →
      sortedByName st (depsOf st p) = true ∧ noAdjDup (depsOf st p) = true) :
    (∀ p, sortedByName (applyEdges st es) (depsOf (applyEdges st es) p) = true ∧
        noAdjDup (depsOf (applyEdges st es) p) = true) ∧
    (∀ p, sortedByName (normalizeDependants (applyEdges st es))
          (dependantsOf (normalizeDependants (applyEdges st es)) p) = true ∧
        noAdjDup (dependantsOf (normalizeDependants (applyEdges st es)) p) = true) := by
  have hinv : DepInv st := by
    intro p
    by_cases h : p < st.heap.length
    · exact h0 p h
    · rw [depsOf_ge st p (by omega)]
      exact ⟨rfl, rfl⟩
  have hinv' := depInv_applyEdges st es hinv
  refine ⟨hinv', ?_⟩
  intro p
  have hcong := sortedByName_congr (applyEdges st es) (normalizeDependants (applyEdges st es))
    (pkgName_normalize (applyEdges st es))
  rw [hcong, dependantsOf_normalize]
  split
  · exact ⟨sorted_makeUnique _ _ (sorted_sortPkgs _ _), noAdjDup_makeUnique _⟩
  · exact ⟨rfl, rfl⟩

/-- Witness for the amended C4 theorem on `cSt4`. -/
theorem edge_lists_discipline_witness :
    sortedByName (applyEdges cSt4 [(1, 0), (2, 0)])
        (depsOf (applyEdges cSt4 [(1, 0), (2, 0)]) 1) = true ∧
      noAdjDup (depsOf (applyEdges cSt4 [(1, 0), (2, 0)]) 1) = true :=
  (edge_lists_discipline cSt4 [(1, 0), (2, 0)] (by decide)).1 1

/-- C5 as stated is false: package 4 of `exSt` has the non-empty
dependency list [3], yet its depth is 0 because its only dependency is
learned (depth -1), refuting "depth 0 iff no dependencies". -/
theorem depth_zero_cex :
    dependencyDepthF exSt 2 4 = some 0 ∧ depsOf exSt 4 ≠ [] ∧
      (predeclared exSt 4 || learnedOf exSt 4) = false := by decide

/-- C5 (amended): depth is always ≥ -1; it is -1 exactly for learned or
predeclared packages; and it is 0 exactly when the package is neither
learned nor predeclared and every one of its dependencies has depth -1
(in particular when it has no dependencies). -/
theorem dependencyDepth_sentinel_values (st : St) (rank : Nat → Nat)
    (hr : ∀ p, p < st.heap.length → ∀ d ∈ depsOf st p, rank d < rank p)
    (p fuel : Nat) (hf : rank p < fuel) :
    ∃ v, dependencyDepthF st fuel p = some v ∧ -1 ≤ v ∧
      (v = -1 ↔ (predeclared st p || learnedOf st p) = true) ∧
      (v = 0 ↔ (predeclared st p || learnedOf st p) = false ∧
        ∀ d ∈ depsOf st p, dependencyDepthF st fuel d = some (-1)) := by
  have hru := hr_unbounded st rank hr
  obtain ⟨f, rfl⟩ : ∃ m, fuel = m + 1 := ⟨fuel - 1, by omega⟩
  by_cases hc : (predeclared st p || learnedOf st p) = true
  · refine ⟨-1, by rw [dependencyDepthF, if_pos hc], by omega, by simp [hc], ?_⟩
    constructor
    · intro h
      exact absurd h (by omega)
    · rintro ⟨h, _⟩
      rw [hc] at h
      exact absurd h (by simp)
  · have hc' : (predeclared st p || learnedOf st p) = false := by
      simpa using hc
    cases hdeps : depsOf st p with
    | nil =>
      refine ⟨0, ?_, by omega, by simp [hc'], ?_⟩
      · rw [dependencyDepthF, if_neg hc, hdeps]
        rfl
      · constructor
        · intro _
          refine ⟨hc', ?_⟩
          intro x hx
          simp at hx
        · intro _
          rfl
    | cons d ds =>
      have hplen : p < st.heap.length := by
        by_contra hpl
        rw [depsOf_ge st p (by omega)] at hdeps
        exact List.noConfusion hdeps
      have hstab : ∀ x ∈ depsOf st p,
          dependencyDepthF st f x = dependencyDepthF st (f + 1) x ∧
            (dependencyDepthF st f x).isSome := by
        intro x hx
        have hxr := hru p x hx
        exact depth_stable_aux st rank hru (rank x + 1) x f (f + 1) (by omega) (by omega)
          (by omega)
      obtain ⟨vs0, hvs0, hfold⟩ := foldl_depthStep_values (fun x => dependencyDepthF st f x)
        (depsOf st p) (fun x hx => (hstab x hx).2)
      have hvs0' := hvs0
      rw [hdeps] at hvs0'
      obtain ⟨v, vs, hv0, hvs, rfl⟩ := List.forall₂_cons_left_iff.mp hvs0'
      have hvge : -1 ≤ v := depth_ge_neg_one st f d v hv0
      have hwge : ∀ w ∈ vs, -1 ≤ w := by
        intro w hw
        obtain ⟨x, _, hxw⟩ := forall₂_mem_right hvs w hw
        exact depth_ge_neg_one st f x w hxw
      have hMge : v ≤ vs.foldl max v := foldl_max_ge_init vs v
      have hval : dependencyDepthF st (f + 1) p = some (1 + vs.foldl max v) := by
        rw [dependencyDepthF, if_neg hc, hfold 0, foldl_step_eq_max,
          max_eq_right (by omega)]
      refine ⟨1 + vs.foldl max v, hval, by omega, ?_, ?_⟩
      · constructor
        · intro h
          exact absurd h (by omega)
        · intro h
          rw [h] at hc'
          exact absurd hc' (by simp)
      · simp only [hc', true_and]
        constructor
        · intro hzero
          have hM : vs.foldl max v = -1 := by omega
          have hvm1 : v = -1 := by
            have := foldl_max_ge_init vs v
            omega
          have hallvs : ∀ w ∈ vs, w = -1 := by
            intro w hw
            have h1 := foldl_max_mem_le vs v w hw
            have h2 := hwge w hw
            omega
          intro x hx
          have hx' : x ∈ depsOf st p := by rw [hdeps]; exact hx
          rw [← (hstab x hx').1]
          obtain ⟨w, hw, hxw⟩ := forall₂_mem_left hvs0' x hx
          rcases List.mem_cons.mp hw with hwv | hwvs
          · rw [hxw, hwv, hvm1]
          · rw [hxw, hallvs w hwvs]
        · intro hall
          have hdm : d ∈ depsOf st p := by rw [hdeps]; exact List.mem_cons_self d ds
          have hvm1 : v = -1 := by
            have h1 := hall d (List.mem_cons_self d ds)
            rw [← (hstab d hdm).1, hv0] at h1
            simpa using h1
          have hallvs : ∀ w ∈ vs, w = -1 := by
            intro w hw
            obtain ⟨x, hx, hxw⟩ := forall₂_mem_right hvs w hw
            have hxm : x ∈ depsOf st p := by rw [hdeps]; exact List.mem_cons_of_mem d hx
            have h1 := hall x (List.mem_cons_of_mem d hx)
            rw [← (hstab x hxm).1, hxw] at h1
            simpa using h1
          rw [hvm1, foldl_max_const_neg_one vs hallvs]
          omega

/-- Witness for the amended C5 theorem at package 4 of `exSt`. -/
theorem dependencyDepth_sentinel_values_witness :
    ∃ v, dependencyDepthF exSt 5 4 = some v ∧ -1 ≤ v ∧
      (v = -1 ↔ (predeclared exSt 4 || learnedOf exSt 4) = true) ∧
      (v = 0 ↔ (predeclared exSt 4 || learnedOf exSt 4) = false ∧
        ∀ d ∈ depsOf exSt 4, dependencyDepthF exSt 5 d = some (-1)) :=
  dependencyDepth_sentinel_values exSt (fun p => p) (by decide) 4 5 (by decide)

/-- C6 as stated is false: `NewPackage` computes the Internal flag with
`strings.Contains`, a substring test.  Registering `r/internals` under
root `r` sets Internal even though "internal" is not a whole path
component of "internals". -/
theorem internal_segment_cex :
    newPackage cSt6 "r/internals" = .ok cSt6' 0 ∧ internalOf cSt6' 0 = true ∧
      "internal" ∉ splitSlash "internals" := by decide

/-- C6 (amended): for every package registered by `NewPackage` other than
the root pseudo-package, the Internal flag equals the substring test
`strings.Contains(relPath, "internal")` — a whole path component is not
required. -/
theorem internal_flag_substring (st : St) (fullPath : String)
    (hne : fullPath ≠ st.rootPath) (st' : St) (pid : Nat)
    (hok : newPackage st fullPath = .ok st' pid) :
    internalOf st' pid =
      strContains (strDropN fullPath (strLen (st.rootPath ++ "/"))) "internal" := by
  rw [newPackage] at hok
  by_cases hdup : (lookupL st.pkgsByLocation fullPath).isSome
  · rw [if_pos hdup] at hok
    exact NPResult.noConfusion hok
  · rw [if_neg hdup, if_neg hne] at hok
    by_cases hlen : strLen (st.rootPath ++ "/") ≤ strLen fullPath
    · rw [if_pos hlen] at hok
      injection hok with h1 h2
      subst h1
      subst h2
      simp only [internalOf, pkgAt]
      rw [listGetD_append_length]
    · rw [if_neg hlen] at hok
      exact NPResult.noConfusion hok

/-- Witness for the amended C6 theorem. -/
theorem internal_flag_substring_witness :
    internalOf cSt6' 0 =
      strContains (strDropN "r/internals" (strLen (cSt6.rootPath ++ "/"))) "internal" :=
  internal_flag_substring cSt6 "r/internals" (by decide) cSt6' 0 (by decide)

/-- C7: registering an identity already present yields the duplicate
error and leaves the whole state (registry and heap) unchanged, so the
previous instance is not overwritten; registering an absent identity (of
the shape every caller passes, cf. C10) appends exactly one new instance
registered under that identity. -/
theorem newPackage_registry (st : St) (fullPath : String) :
    ((lookupL st.pkgsByLocation fullPath).isSome = true →
      newPackage st fullPath = .err st ("Package already loaded: " ++ fullPath)) ∧
    (lookupL st.pkgsByLocation fullPath = none →
      (fullPath = st.rootPath ∨ strLen (st.rootPath ++ "/") ≤ strLen fullPath) →
      ∃ pid st', newPackage st fullPath = .ok st' pid ∧
        pid = st.heap.length ∧
        st'.pkgsByLocation = st.pkgsByLocation ++ [(fullPath, pid)] ∧
        lookupL st'.pkgsByLocation fullPath = some pid ∧
        st'.heap.length = st.heap.length + 1 ∧
        (∀ q, q < st.heap.length → pkgAt st' q = pkgAt st q)) := by
  constructor
  · intro hdup
    rw [newPackage, if_pos hdup]
  · intro hnone hval
    have hdup' : ¬ (lookupL st.pkgsByLocation fullPath).isSome = true := by simp [hnone]
    by_cases hroot : fullPath = st.rootPath
    · rw [newPackage, if_neg hdup', if_pos hroot]
      exact ⟨st.heap.length, _, rfl, rfl, rfl, lookupL_append_self _ _ _ hnone, by simp,
        fun q hq => listGetD_append_lt st.heap defaultPkg q hq⟩
    · have hlen : strLen (st.rootPath ++ "/") ≤ strLen fullPath := by
        rcases hval with h | h
        · exact absurd h hroot
        · exact h
      rw [newPackage, if_neg hdup', if_neg hroot, if_pos hlen]
      exact ⟨st.heap.length, _, rfl, rfl, rfl, lookupL_append_self _ _ _ hnone, by simp,
        fun q hq => listGetD_append_lt st.heap _ q hq⟩

/-- Witness for the C7 theorem: a duplicate registration on `exSt` and a
fresh registration on the empty registry. -/
theorem newPackage_registry_witness :
    newPackage exSt "r/a" = .err exSt ("Package already loaded: " ++ "r/a") ∧
      ∃ pid st', newPackage cSt6 "r/x" = .ok st' pid ∧ pid = cSt6.heap.length ∧
        st'.pkgsByLocation = cSt6.pkgsByLocation ++ [("r/x", pid)] ∧
        lookupL st'.pkgsByLocation "r/x" = some pid ∧
        st'.heap.length = cSt6.heap.length + 1 ∧
        (∀ q, q < cSt6.heap.length → pkgAt st' q = pkgAt cSt6 q) :=
  ⟨(newPackage_registry exSt "r/a").1 (by decide),
    (newPackage_registry cSt6 "r/x").2 (by decide) (Or.inr (by decide))⟩

/-- C8: the report loop starts at depth 0, visits buckets in ascending
order, stops at the first depth whose bucket is absent, never prints any
package of the depth-(-1) bucket, and each bucket is ordered ascending by
display name. -/
theorem report_bucket_order (st : St) (F N k : Nat)
    (hNe : bucketOf st F (N : Int) = [])
    (hFull : ∀ m : Nat, m < N → bucketOf st F (m : Int) ≠ [])
    (hk : N < k) :
    printLoop st F k 0 =
      ((List.range N).map (fun m : Nat => bucketOf st F (m : Int))).flatten ∧
    (∀ d : Int, sortedByName st (bucketOf st F d) = true) ∧
    (∀ p, dependencyDepthF st F p = some (-1) → p ∉ printLoop st F k 0) := by
  have hmain : printLoop st F k 0 =
      ((List.range N).map (fun m : Nat => bucketOf st F (m : Int))).flatten := by
    have h := printLoop_range st F N hNe hFull k 0 (by omega) (by omega)
    simpa [List.range_eq_range'] using h
  refine ⟨hmain, fun d => sorted_sortPkgs st _, ?_⟩
  intro p hp hmem
  rw [hmain] at hmem
  obtain ⟨l, hl, hpl⟩ := List.mem_flatten.mp hmem
  obtain ⟨m, hm, rfl⟩ := List.mem_map.mp hl
  rw [bucketOf, mem_sortPkgs] at hpl
  have heq : dependencyDepthF st F p = some (m : Int) :=
    of_decide_eq_true (List.mem_filter.mp hpl).2
  rw [hp] at heq
  simp only [Option.some.injEq] at heq
  omega

/-- Witness for the C8 theorem on `exSt` (buckets 0, 1, 2 populated,
bucket 3 empty). -/
theorem report_bucket_order_witness :
    printLoop exSt 6 4 0 =
      ((List.range 3).map (fun m : Nat => bucketOf exSt 6 (m : Int))).flatten ∧
    (∀ d : Int, sortedByName exSt (bucketOf exSt 6 d) = true) ∧
    (∀ p, dependencyDepthF exSt 6 p = some (-1) → p ∉ printLoop exSt 6 4 0) :=
  report_bucket_order exSt 6 3 4 (by decide) (by decide) (by decide)

/-- C9: under the assumed acyclicity (a topological rank for each edge
relation) both recursive analyzers terminate on every package — some
finite recursion fuel yields a defined result.  Acyclicity is a
precondition; neither function checks it. -/
theorem analyzers_terminate (st : St) (rankD rankI : Nat → Nat)
    (hrD : ∀ p, p < st.heap.length → ∀ d ∈ depsOf st p, rankD d < rankD p)
    (hrI : ∀ p, p < st.heap.length → ∀ d ∈ dependantsOf st p, rankI d < rankI p)
    (p : Nat) :
    ∃ fuel, (dependencyDepthF st fuel p).isSome = true ∧
      (importedF st fuel p).isSome = true := by
  refine ⟨rankD p + rankI p + 1, ?_, ?_⟩
  · exact (depth_stable_aux st rankD (hr_unbounded st rankD hrD) (rankD p + 1) p
      (rankD p + rankI p + 1) (rankD p + rankI p + 1) (by omega) (by omega) (by omega)).2
  · exact (imp_stable_aux st rankI (hri_unbounded st rankI hrI) (rankI p + 1) p
      (rankD p + rankI p + 1) (rankD p + rankI p + 1) (by omega) (by omega) (by omega)).2

/-- Witness for the C9 theorem at package 2 of `exSt`. -/
theorem analyzers_terminate_witness :
    ∃ fuel, (dependencyDepthF exSt fuel 2).isSome = true ∧
      (importedF exSt fuel 2).isSome = true :=
  analyzers_terminate exSt (fun p => p) rankI5 (by decide) (by decide) 2

theorem strLen_slash (s : String) : strLen (s ++ "/") = strLen s + 1 := by
  simp [strLen, String.data_append]

/-- C10: `NewPackage` is total only on the root identity or identities of
length at least len(root)+1: any absent identity that differs from the
root and is shorter makes the slice `fullPath[len(rootPath+"/"):]` index
out of bounds (modelled as `.crash`); identities of the permitted shape
never crash.  The hypothesis that every registered key already has that
shape holds in every reachable registry, since only `NewPackage` inserts
keys. -/
theorem newPackage_totality (st : St) (fullPath : String)
    (hwf : ∀ k v, (k, v) ∈ st.pkgsByLocation →
      k = st.rootPath ∨ strLen st.rootPath + 1 ≤ strLen k) :
    (fullPath ≠ st.rootPath → strLen fullPath < strLen st.rootPath + 1 →
      newPackage st fullPath = .crash) ∧
    ((fullPath = st.rootPath ∨ strLen st.rootPath + 1 ≤ strLen fullPath) →
      newPackage st fullPath ≠ .crash) := by
  have hsl : strLen (st.rootPath ++ "/") = strLen st.rootPath + 1 := strLen_slash _
  constructor
  · intro hne hshort
    have hlk : lookupL st.pkgsByLocation fullPath = none := by
      cases hv : lookupL st.pkgsByLocation fullPath with
      | none => rfl
      | some v =>
        rcases hwf _ _ (lookupL_mem _ _ _ hv) with h | h
        · exact absurd h hne
        · omega
    rw [newPackage, if_neg (by simp [hlk]), if_neg hne, if_neg (by omega)]
  · intro hval
    by_cases hdup : (lookupL st.pkgsByLocation fullPath).isSome = true
    · rw [newPackage, if_pos hdup]
      intro hcon
      exact NPResult.noConfusion hcon
    · by_cases hroot : fullPath = st.rootPath
      · rw [newPackage, if_neg hdup, if_pos hroot]
        intro hcon
        exact NPResult.noConfusion hcon
      · have hlen : strLen (st.rootPath ++ "/") ≤ strLen fullPath := by
          rcases hval with h | h
          · exact absurd h hroot
          · omega
        rw [newPackage, if_neg hdup, if_neg hroot, if_pos hlen]
        intro hcon
        exact NPResult.noConfusion hcon

/-- Witness for the C10 theorem: registering "x" under root "root"
crashes. -/
theorem newPackage_totality_witness : newPackage cStRoot "x" = .crash :=
  (newPackage_totality cStRoot "x" (fun k v h => absurd h (List.not_mem_nil _))).1
    (by decide) (by decide)

end GoDeps
